import Mathlib

/-!
Verification of the debug-listener repository (a TCP fan-in message viewer).

The embedding models the two source files:
  * `main.go` — the listener: per-connection line reading (`handleConnection`),
    the identity-marker protocol, and the bubbletea `Update` render loop with
    its reflow-based formatting pipeline.
  * `example-client.go` — the sender (not needed by any claim below).

Strings are modelled as `List Char` (`Str`); Go byte indices coincide with
character indices on the ASCII data the protocol manipulates.  The reflow
library calls (`wordwrap.String`, `indent.String`, `wrap.String`) and the
`strings` functions used by the source are embedded as executable functions
with their default options; every printable rune is modelled as one column
wide, and ANSI styling (which is width-invisible to reflow) is not modelled,
so `lipgloss` bold rendering is the identity on printable content.
-/

namespace DebugListener

/-- Strings are lists of characters; Go's byte slices are ASCII here. -/
abbrev Str := List Char

/-- The reserved identity marker, `"::name::"` in `main.go` line 81. -/
def markerStr : Str := "::name::".toList

/-- `beginsWith pat s` holds when `s` starts with `pat` (the spec's
"begins with the literal marker" notion). -/
def beginsWith : Str → Str → Bool
  | [], _ => true
  | _ :: _, [] => false
  | p :: ps, c :: cs => p = c && beginsWith ps cs

/-- Go `strings.Index pat hay`: index of the first occurrence of `pat`
in `hay`, or `none` (Go returns `-1`). -/
def strIndex (pat : Str) : Str → Option Nat
  | [] => if beginsWith pat [] then some 0 else none
  | c :: cs =>
    if beginsWith pat (c :: cs) then some 0
    else (strIndex pat cs).map (· + 1)

/-- ASCII fragment of Go `unicode.IsSpace` (the characters the protocol
can actually see on a line). -/
def isSpaceChar (c : Char) : Bool :=
  c = ' ' || c = '\t' || c = '\n' || c = '\r' || c = '\x0b' || c = '\x0c'

/-- Go `strings.TrimSpace`: drop leading and trailing whitespace. -/
def trimSpace (s : Str) : Str :=
  ((s.dropWhile isSpaceChar).reverse.dropWhile isSpaceChar).reverse

/-- The label stored when the marker is found at index `i` of a line:
`strings.TrimSpace(str[index+8:]) + ": "` (`main.go` line 82). -/
def setLabel (line : Str) (i : Nat) : Str :=
  trimSpace (line.drop (i + 8)) ++ ": ".toList

/-- The event sent to the render program for a displayable line
(`remoteMessage` in `main.go` lines 57–60). -/
structure remoteMessage where
  name : Str
  message : Str
deriving DecidableEq, Repr

/-- One iteration of the `handleConnection` loop body on a decoded line
(`main.go` lines 80–85): returns the new identity label and the emitted
event, if any. -/
def stepLine (name line : Str) : Str × Option remoteMessage :=
  match strIndex markerStr line with
  | some i => (setLabel line i, none)
  | none => (name, some ⟨name, line⟩)

/-- The sequence of events `handleConnection` emits for a list of decoded
lines, starting from identity label `name` (`main.go` lines 72–86). -/
def processLines (name : Str) : List Str → List remoteMessage
  | [] => []
  | l :: ls =>
    match stepLine name l with
    | (n, some m) => m :: processLines n ls
    | (n, none) => processLines n ls

/-- Helper for `completeLines`: `acc` holds the (reversed) bytes of the
line being read.  When the stream ends before a `'\n'`, `bufio`'s
`ReadBytes` returns the partial data together with a non-nil error, and
`handleConnection` returns without using it — so the partial line is
discarded. -/
def completeLinesAux (acc : Str) : Str → List Str
  | [] => []
  | c :: cs =>
    if c = '\n' then acc.reverse :: completeLinesAux [] cs
    else completeLinesAux (c :: acc) cs

/-- The Line Framer: the `'\n'`-terminated lines (terminator stripped, as by
`string(buffer[:len(buffer)-1])`, `main.go` line 80) that
`reader.ReadBytes('\n')` yields before the loop exits. -/
def completeLines (s : Str) : List Str := completeLinesAux [] s

/-- All events a connection worker emits for a whole connection byte
stream: framing, then the marker protocol starting from the empty label
(`name := ""`, `main.go` line 70). -/
def connEvents (stream : Str) : List remoteMessage :=
  processLines [] (completeLines stream)

/-! ### The formatting pipeline (`main.go` lines 174–181)

`Update`'s `remoteMessage` branch formats a message through
`muesli/reflow`'s `wordwrap`, `indent` and `wrap` writers and Go's
`strings.TrimLeft`.  The three reflow writers are embedded below with
their default options (`Breakpoints = ['-']`, `Newline = '\n'`,
`KeepNewlines = true`, `PreserveSpace = false`, `TabWidth = 4`), each
printable rune one column wide. -/

/-- State of a `reflow/wordwrap` writer: output buffer, pending
whitespace, pending word, and current line width (Go `int`). -/
structure WWState where
  buf : Str
  space : Str
  word : Str
  lineLen : Int
deriving DecidableEq, Repr

/-- `wordwrap.addSpace`: flush the pending whitespace to the buffer. -/
def wwAddSpace (st : WWState) : WWState :=
  { st with
    lineLen := st.lineLen + st.space.length
    buf := st.buf ++ st.space
    space := [] }

/-- `wordwrap.addWord`: flush pending whitespace and word to the buffer. -/
def wwAddWord (st : WWState) : WWState :=
  if st.word.isEmpty then st
  else
    let st := wwAddSpace st
    { st with
      lineLen := st.lineLen + st.word.length
      buf := st.buf ++ st.word
      word := [] }

/-- `wordwrap.addNewLine`: emit a newline, reset the line width and the
pending whitespace. -/
def wwAddNewline (st : WWState) : WWState :=
  { st with buf := st.buf ++ ['\n'], lineLen := 0, space := [] }

/-- One rune of `reflow/wordwrap.Write` (default options; no ANSI). -/
def wwStep (limit : Int) (st : WWState) (c : Char) : WWState :=
  if c = '\n' then
    let st :=
      if st.word.isEmpty then
        let st :=
          if st.lineLen + st.space.length > limit then { st with lineLen := 0 }
          else { st with buf := st.buf ++ st.space }
        { st with space := [] }
      else st
    wwAddNewline (wwAddWord st)
  else if isSpaceChar c then
    let st := wwAddWord st
    { st with space := st.space ++ [c] }
  else if c = '-' then
    let st := wwAddWord (wwAddSpace st)
    { st with buf := st.buf ++ [c], lineLen := st.lineLen + 1 }
  else
    let st := { st with word := st.word ++ [c] }
    if st.lineLen + st.space.length + st.word.length > limit ∧
        (st.word.length : Int) < limit then
      wwAddNewline st
    else st

/-- `reflow/wordwrap.String s limit`: a zero limit passes the input
through; otherwise run the writer and close it (flushing the last word). -/
def wordwrapString (s : Str) (limit : Int) : Str :=
  if limit = 0 then s
  else (wwAddWord (s.foldl (wwStep limit) ⟨[], [], [], 0⟩)).buf

/-- `reflow/indent`: insert `n` spaces before the first rune of every
non-empty line (`skip` is the writer's `skipIndent` flag). -/
def indentGo (n : Nat) : Bool → Str → Str
  | _, [] => []
  | skip, c :: cs =>
    if c = '\n' then c :: indentGo n false cs
    else if skip then c :: indentGo n skip cs
    else List.replicate n ' ' ++ c :: indentGo n true cs

/-- `reflow/indent.String s n`. -/
def indentString (s : Str) (n : Nat) : Str := indentGo n false s

/-- Go `strings.TrimLeft s " "`: drop the leading space characters. -/
def trimLeftSpaces (s : Str) : Str := s.dropWhile (· = ' ')

/-- `reflow/wrap`'s tab expansion (`TabWidth = 4`). -/
def tabExpand (s : Str) : Str :=
  (s.map (fun c => if c = '\t' then List.replicate 4 ' ' else [c])).flatten

/-- `ansi.PrintableRuneWidth` in this model: every rune except `'\n'` is
one column wide. -/
def printWidth (s : Str) : Nat := (s.filter (· ≠ '\n')).length

/-- State of a `reflow/wrap` (hard-wrap) writer. -/
structure WrState where
  buf : Str
  lineLen : Int
  forceful : Bool
deriving DecidableEq, Repr

/-- `wrap.addNewLine`: emit a newline and reset the line width. -/
def wrAddNewline (st : WrState) : WrState :=
  { st with buf := st.buf ++ ['\n'], lineLen := 0 }

/-- Writing one non-newline rune in `reflow/wrap.Write` after any forced
break: a whitespace rune at the start of a forcefully broken line is
skipped (`PreserveSpace = false`); otherwise the rune is written, the
line width grows by its width (1 in this model) and the forceful flag is
cleared at the start of a line. -/
def wrPut (st : WrState) (c : Char) : WrState :=
  if st.lineLen = 0 ∧ st.forceful = true ∧ isSpaceChar c = true then st
  else
    { st with
      forceful := if st.lineLen = 0 then false else st.forceful
      buf := st.buf ++ [c]
      lineLen := st.lineLen + 1 }

/-- One rune of `reflow/wrap.Write` (default options; no ANSI): a
newline passes through; any other rune first forces a line break when it
would overflow `limit`, then is written by `wrPut`. -/
def wrStep (limit : Int) (st : WrState) (c : Char) : WrState :=
  if c = '\n' then wrAddNewline st
  else
    wrPut
      (if st.lineLen + 1 > limit then { wrAddNewline st with forceful := true }
       else st)
      c

/-- `reflow/wrap.String s limit`: expand tabs; a non-positive limit, or
content that already fits the current line, passes through; otherwise
run the writer rune by rune. -/
def wrapString (s : Str) (limit : Int) : Str :=
  if limit ≤ 0 ∨ (printWidth (tabExpand s) : Int) ≤ limit then tabExpand s
  else ((tabExpand s).foldl (wrStep limit) ⟨[], 0, false⟩).buf

/-- `lipgloss` bold rendering: styling is zero-width and not modelled,
so the printable content is unchanged. -/
def boldRender (s : Str) : Str := s

/-- The formatting steps of `Update`'s `remoteMessage` branch
(`main.go` lines 174–181): prefix the rendered identity when non-empty,
word-wrap to `width - (4 + len(name))`, indent `" " + output` by 4,
trim the leading spaces, append `"\n"` and hard-wrap to `width`. -/
def formatBlock (name message : Str) (width : Int) : Str :=
  let output := if name.length > 0 then boldRender name ++ message else message
  let output := wordwrapString output (width - (4 + (name.length : Int)))
  let output := indentString (' ' :: output) 4
  let output := trimLeftSpaces output
  wrapString (output ++ ['\n']) width

/-- Number of newline characters in a string. -/
def nlCount (s : Str) : Nat := (s.filter (· = '\n')).length

/-- Split a string into its lines at `'\n'` (Go `strings.Split`):
`splitNl s` always has one more element than `s` has newlines. -/
def splitNl : Str → List Str
  | [] => [[]]
  | c :: cs =>
    if c = '\n' then [] :: splitNl cs
    else
      match splitNl cs with
      | [] => [[c]]
      | l :: ls => (c :: l) :: ls

/-! ### The render loop (`main.go` lines 51–66 and 110–192)

The bubbletea model and the state changes of `Update`.  The viewport is
the excluded rendering collaborator; per the spec it exposes its
geometry and content, so it is embedded as a record of width, height,
render position and content, with `SetContent` storing the content.
`Update`'s returned commands (quit, sync) and the delegation of scroll
input to `viewport.Update` are collaborator effects with no bearing on
the claims and are not modelled; the `tea.WindowSizeMsg` branch sizes
the viewport from header/footer dimensions computed by the excluded
`lipgloss` renderer and is likewise outside the claims. -/

/-- The viewport collaborator's state visible to `main.go`. -/
structure Viewport where
  width : Int
  height : Int
  yPosition : Int
  content : Str
deriving DecidableEq, Repr

/-- `viewport.SetContent`: store the given content. -/
def Viewport.setContent (v : Viewport) (s : Str) : Viewport :=
  { v with content := s }

/-- The bubbletea model (`main.go` lines 51–55). -/
structure Model where
  content : Str
  ready : Bool
  viewport : Viewport
deriving DecidableEq, Repr

/-- `initialModel` (`main.go` lines 62–66): empty content, `ready`
false, zero-valued viewport. -/
def initialModel : Model :=
  { content := [], ready := false, viewport := ⟨0, 0, 0, []⟩ }

/-- The messages `Update` handles that the claims concern: key presses
and remote messages. -/
inductive Msg where
  | key (k : Str)
  | remote (m : remoteMessage)
deriving DecidableEq, Repr

/-- The state change of `Update` (`main.go` lines 114–192) on the
modelled messages: `"ctrl+c"`/`"q"` request quit (state unchanged),
`"c"` clears the content and the viewport content (lines 131–134), a
`remoteMessage` with non-empty text appends its formatted block to the
content and pushes the new content to the viewport (lines 172–184), and
an empty-text `remoteMessage` changes nothing. -/
def update (m : Model) (msg : Msg) : Model :=
  match msg with
  | .key k =>
    if k = "ctrl+c".toList ∨ k = "q".toList then m
    else if k = "c".toList then
      { m with content := [], viewport := m.viewport.setContent [] }
    else m
  | .remote r =>
    if r.message.length > 0 then
      let c := m.content ++ formatBlock r.name r.message m.viewport.width
      { m with content := c, viewport := m.viewport.setContent c }
    else m

/-! ### Spec-side definitions -/

/-- Modelled from the spec ("the most recent announcement strictly
preceding that message, or empty if none"): the label the last
identity-announcement line of `lines` sets, or the empty label when no
line of `lines` is an announcement. -/
def lastLabel (lines : List Str) : Str :=
  ((lines.filterMap fun l => (strIndex markerStr l).map (setLabel l)).getLast?).getD []

/-- The identity label the `handleConnection` loop holds after processing
`lines`, starting from label `name`. -/
def nameAfter (name : Str) (lines : List Str) : Str :=
  lines.foldl (fun n l => (stepLine n l).1) name

example :
    update initialModel (.remote ⟨[], "ab".toList⟩) =
      { content := "ab\n".toList, ready := false,
        viewport := ⟨0, 0, 0, "ab\n".toList⟩ } := by decide
example : lastLabel ["::name::A".toList, "x".toList, "::name::B".toList] = "B: ".toList := by
  decide
example : lastLabel ["hi".toList] = [] := by decide

/-! ### Sanity checks of the embedding on concrete inputs -/

example : wordwrapString "Hello World!".toList 5 = "Hello\nWorld!".toList := by decide
example : wrapString "Hello World!".toList 7 = "Hello W\norld!".toList := by decide
example : formatBlock ": ".toList "hi".toList 80 = ": hi\n".toList := by decide
example : formatBlock [] "ab".toList 0 = "ab\n".toList := by decide
example : formatBlock [] "ab".toList 1 = "a\nb\n".toList := by decide
example : formatBlock "Alice: ".toList "hello".toList 80 = "Alice: hello\n".toList := by decide
example : splitNl "a\nb\n".toList = ["a".toList, "b".toList, []] := by decide

/-! ### Helper lemmas: marker search -/

theorem beginsWith_iff (p s : Str) : beginsWith p s = true ↔ ∃ t, s = p ++ t := by
  induction p generalizing s with
  | nil => simp [beginsWith]
  | cons a ps ih =>
    cases s with
    | nil =>
      simp [beginsWith]
    | cons c cs =>
      simp only [beginsWith, Bool.and_eq_true, decide_eq_true_eq, ih, List.cons_append,
        List.cons.injEq]
      constructor
      · rintro ⟨rfl, t, rfl⟩
        exact ⟨t, rfl, rfl⟩
      · rintro ⟨t, rfl, rfl⟩
        exact ⟨rfl, t, rfl⟩

theorem strIndex_of_begins (pat hay : Str) (h : beginsWith pat hay = true) :
    strIndex pat hay = some 0 := by
  cases hay <;> simp [strIndex, h]

theorem strIndex_ne_none_iff (pat hay : Str) :
    strIndex pat hay ≠ none ↔ ∃ a b : Str, hay = a ++ pat ++ b := by
  induction hay with
  | nil =>
    cases pat with
    | nil =>
      constructor
      · intro _
        exact ⟨[], [], rfl⟩
      · intro _
        simp [strIndex, beginsWith]
    | cons p ps =>
      constructor
      · intro h
        exact absurd rfl h
      · rintro ⟨a, b, hab⟩
        exact absurd hab.symm (by simp)
  | cons c cs ih =>
    by_cases hb : beginsWith pat (c :: cs) = true
    · constructor
      · intro _
        obtain ⟨t, ht⟩ := (beginsWith_iff _ _).1 hb
        exact ⟨[], t, by simpa using ht⟩
      · intro _
        simp [strIndex, hb]
    · rw [Bool.not_eq_true] at hb
      constructor
      · intro h
        simp only [strIndex, hb, Bool.false_eq_true, if_false, ne_eq,
          Option.map_eq_none'] at h
        obtain ⟨a, b, rfl⟩ := ih.1 h
        exact ⟨c :: a, b, rfl⟩
      · rintro ⟨a, b, hab⟩
        cases a with
        | nil =>
          exfalso
          rw [← Bool.not_eq_true, beginsWith_iff] at hb
          exact hb ⟨b, by simpa using hab⟩
        | cons a0 as =>
          rw [List.cons_append, List.cons_append] at hab
          injection hab with h1 h2
          have h' := ih.2 ⟨as, b, by simpa using h2⟩
          simp only [strIndex, hb, Bool.false_eq_true, if_false, ne_eq,
            Option.map_eq_none']
          exact h'
/-! ### Helper lemmas: the connection worker loop -/

theorem getLastD_cons_eq {α : Type} (l : List α) : ∀ a d : α,
    ((a :: l).getLast?).getD d = (l.getLast?).getD a := by
  induction l with
  | nil => intro a d; rfl
  | cons b bs ih =>
    intro a d
    rw [List.getLast?_cons_cons, ih b d, ih b a]

theorem stepLine_fst_of_none (n l : Str) (h : strIndex markerStr l = none) :
    (stepLine n l).1 = n := by
  simp [stepLine, h]

theorem processLines_append (n : Str) (xs ys : List Str) :
    processLines n (xs ++ ys) =
      processLines n xs ++ processLines (nameAfter n xs) ys := by
  induction xs generalizing n with
  | nil => simp [processLines, nameAfter]
  | cons x xs ih =>
    cases hx : stepLine n x with
    | mk n' om =>
      cases om with
      | some m =>
        simp only [List.cons_append, processLines, hx, List.append_eq]
        rw [ih n']
        simp [nameAfter, List.foldl_cons, hx]
      | none =>
        simp only [List.cons_append, processLines, hx, List.append_eq]
        rw [ih n']
        simp [nameAfter, List.foldl_cons, hx]

theorem nameAfter_eq (n : Str) (ls : List Str) :
    nameAfter n ls =
      ((ls.filterMap fun l => (strIndex markerStr l).map (setLabel l)).getLast?).getD n := by
  induction ls generalizing n with
  | nil => rfl
  | cons l ls ih =>
    have hstep : nameAfter n (l :: ls) = nameAfter ((stepLine n l).1) ls := rfl
    cases h : strIndex markerStr l with
    | none =>
      rw [hstep, stepLine_fst_of_none n l h, ih n]
      simp [List.filterMap_cons, h]
    | some i =>
      have hfst : (stepLine n l).1 = setLabel l i := by simp [stepLine, h]
      rw [hstep, hfst, ih (setLabel l i)]
      simp only [List.filterMap_cons, h, Option.map_some']
      rw [getLastD_cons_eq]

/-! ### Claims C1–C5, C7, C8, C10 -/

/-- C1 (counterexample): the line `"x::name::y"` does not begin with the
marker, yet the worker treats it as an identity announcement —
`strings.Index` (`main.go` line 81) finds the marker mid-line, so no
message is emitted for the line.  This refutes "identity announcement
iff the line begins with `::name::`". -/
theorem c1_counterexample :
    (stepLine [] "x::name::y".toList).2 = none ∧
      ¬ ∃ t : Str, "x::name::y".toList = markerStr ++ t := by
  refine ⟨by decide, ?_⟩
  intro h
  have hb : beginsWith markerStr "x::name::y".toList = true := (beginsWith_iff _ _).2 h
  exact absurd hb (by decide)

/-- C1 (amended): a line is treated as an identity announcement (no
message emitted) if and only if it CONTAINS the literal marker
`::name::` anywhere; the identity is taken from after the first
occurrence. -/
theorem c1_amended (name line : Str) :
    (stepLine name line).2 = none ↔ ∃ a b : Str, line = a ++ markerStr ++ b := by
  rw [← strIndex_ne_none_iff]
  cases h : strIndex markerStr line with
  | none => simp [stepLine, h]
  | some i => simp [stepLine, h]

/-- C2: the label attached to the message emitted for a non-identity
line equals the label set by the most recent identity-announcement line
strictly preceding it on the same connection (`lastLabel pre`), or the
empty label when no announcement preceded it; an announcement takes
effect only for subsequent lines. -/
theorem c2_most_recent_label (pre : List Str) (l : Str)
    (h : strIndex markerStr l = none) :
    processLines [] (pre ++ [l]) = processLines [] pre ++ [⟨lastLabel pre, l⟩] := by
  rw [processLines_append]
  have hn : nameAfter [] pre = lastLabel pre := by
    rw [nameAfter_eq]
    rfl
  rw [hn]
  simp [processLines, stepLine, h]

theorem c2_witness :
    strIndex markerStr "hi".toList = none ∧
      processLines [] (["::name::Alice".toList] ++ ["hi".toList]) =
        processLines [] ["::name::Alice".toList] ++
          [⟨lastLabel ["::name::Alice".toList], "hi".toList⟩] :=
  ⟨by decide, c2_most_recent_label _ _ (by decide)⟩

/-- C3: the worker emits exactly one message per non-identity line and
none per identity line, in exactly the order the lines were read: the
emitted message texts are precisely the non-identity lines, in order. -/
theorem c3_messages_in_order (name : Str) (lines : List Str) :
    (processLines name lines).map remoteMessage.message =
      lines.filter fun l => (strIndex markerStr l).isNone := by
  induction lines generalizing name with
  | nil => rfl
  | cons l ls ih =>
    cases h : strIndex markerStr l with
    | none => simp [processLines, stepLine, h, List.filter_cons, ih]
    | some i => simp [processLines, stepLine, h, List.filter_cons, ih]

/-- C4 (counterexample): a marker line with whitespace-only remainder
sets the identity to the two-character label `": "`, not to the empty
label, and a subsequent message is displayed with a bare `": "` prefix
(the `len(msg.name) > 0` check in `main.go` line 175 sees length 2). -/
theorem c4_counterexample :
    processLines [] ["::name:: ".toList, "hi".toList] =
        [⟨": ".toList, "hi".toList⟩] ∧
      formatBlock ": ".toList "hi".toList 80 = ": hi\n".toList ∧
      (": ".toList : Str) ≠ ([] : Str) := by decide

/-- C4 (amended): a marker line whose remainder is empty or whitespace
only sets the connection's identity to the label `": "` (the trimmed
empty remainder plus the `": "` terminator), so subsequent messages are
displayed with a bare `": "` prefix; no error is raised. -/
theorem c4_amended (name rest : Str) (h : ∀ c ∈ rest, isSpaceChar c = true) :
    stepLine name (markerStr ++ rest) = (": ".toList, none) := by
  have hb : beginsWith markerStr (markerStr ++ rest) = true :=
    (beginsWith_iff _ _).2 ⟨rest, rfl⟩
  have hd : rest.dropWhile isSpaceChar = [] := by
    rw [List.dropWhile_eq_nil_iff]
    exact h
  have hlen : markerStr.length = 8 := by decide
  have hrest : (markerStr ++ rest).drop 8 = rest := by
    rw [← hlen]
    exact List.drop_left _ _
  simp [stepLine, strIndex_of_begins _ _ hb, setLabel, hrest, trimSpace, hd]

theorem c4_witness :
    (∀ c ∈ " \t ".toList, isSpaceChar c = true) ∧
      stepLine [] (markerStr ++ " \t ".toList) = (": ".toList, none) :=
  ⟨by decide, c4_amended _ _ (by decide)⟩

/-- C5 (counterexample): in a ready model with transcript `"x"`, a
message with empty text leaves the transcript exactly `"x"` — the
`len(msg.message) > 0` guard (`main.go` line 173) appends nothing — and
in particular not the claimed indent-plus-newline block. -/
theorem c5_counterexample :
    (update ⟨"x".toList, true, ⟨10, 5, 1, "x".toList⟩⟩
        (.remote ⟨"a".toList, []⟩)).content = "x".toList ∧
      ("x".toList : Str) ≠ "x    \n".toList := by decide

/-- C5 (amended): a message whose text is empty produces no display
block at all: the render state (transcript included) is completely
unchanged, and no error is raised. -/
theorem c5_amended (m : Model) (name : Str) :
    update m (.remote ⟨name, []⟩) = m := rfl

/-- `Update` on the key `"c"` (`main.go` lines 131–134): the content and
the viewport content are emptied, nothing else changes. -/
theorem update_clear (m : Model) :
    update m (.key "c".toList) =
      { m with content := [], viewport := m.viewport.setContent [] } := rfl

/-- C7 (counterexample): in a ready model of viewport width 1,
clear-then-append formats `"ab"` at width 1 (hard-wrapped to
`"a\nb\n"`), while appending from the program's empty initial state —
whose viewport width is 0 — yields the unwrapped `"ab\n"`. -/
theorem c7_counterexample :
    (update (update ⟨"old".toList, true, ⟨1, 5, 0, "old".toList⟩⟩ (.key "c".toList))
        (.remote ⟨[], "ab".toList⟩)).content ≠
      (update initialModel (.remote ⟨[], "ab".toList⟩)).content := by decide

/-- C7 (amended): clearing and then formatting-appending a message
leaves the transcript equal to exactly that message's formatted block
alone, produced at the current viewport width (empty when the message
text is empty) — i.e. the clear leaves no residue; this coincides with
formatting from the empty transcript in the same state, but not with
formatting from the program's initial state, whose width is zero. -/
theorem c7_amended (m : Model) (r : remoteMessage) :
    (update (update m (.key "c".toList)) (.remote r)).content =
      (if r.message.length > 0 then formatBlock r.name r.message m.viewport.width
       else []) := by
  rw [update_clear]
  by_cases hr : r.message.length > 0
  · simp [update, hr, Viewport.setContent]
  · simp [update, hr]

/-! ### Claim C8 -/

theorem completeLinesAux_no_nl (acc t : Str) (h : '\n' ∉ t) :
    completeLinesAux acc t = [] := by
  induction t generalizing acc with
  | nil => rfl
  | cons c cs ih =>
    rw [List.mem_cons, not_or] at h
    simp only [completeLinesAux]
    rw [if_neg fun hc => h.1 hc.symm, ih _ h.2]

theorem completeLinesAux_append_no_nl (s t acc : Str) (h : '\n' ∉ t) :
    completeLinesAux acc (s ++ t) = completeLinesAux acc s := by
  induction s generalizing acc with
  | nil => simpa [completeLinesAux] using completeLinesAux_no_nl acc t h
  | cons c cs ih =>
    simp only [List.cons_append, completeLinesAux]
    by_cases hc : c = '\n' <;> simp [hc, ih]

/-- C8: when the stream ends (or the read fails), the worker terminates
without emitting further events: partial trailing data `t` that arrives
without a line terminator is discarded — the events of `s ++ t` are
exactly the events of `s`. -/
theorem c8_partial_discarded (s t : Str) (h : '\n' ∉ t) :
    connEvents (s ++ t) = connEvents s := by
  unfold connEvents completeLines
  rw [completeLinesAux_append_no_nl _ _ _ h]

theorem c8_witness :
    '\n' ∉ "partial".toList ∧
      connEvents ("a\nhi\n".toList ++ "partial".toList) = connEvents "a\nhi\n".toList :=
  ⟨by decide, c8_partial_discarded _ _ (by decide)⟩

/-- C9 (counterexample): formatting at width 0 is not the same as
formatting at width 1 — width 0 disables wrapping (`"ab\n"`), width 1
hard-wraps (`"a\nb\n"`). -/
theorem c9_counterexample :
    formatBlock [] "ab".toList 0 ≠ formatBlock [] "ab".toList 1 := by decide

/-- C10: a clear-request in the Ready state empties the transcript and
the viewport content and changes nothing else: `ready` stays true and
the viewport's width, height and render position are untouched. -/
theorem c10_clear_frame (m : Model) (h : m.ready = true) :
    update m (.key "c".toList) =
      { content := [], ready := true,
        viewport := ⟨m.viewport.width, m.viewport.height, m.viewport.yPosition, []⟩ } := by
  rw [update_clear]
  cases m with
  | mk c r v =>
    cases v with
    | mk w ht y cv =>
      subst h
      rfl

theorem c10_witness :
    ((⟨"x".toList, true, ⟨3, 4, 5, "x".toList⟩⟩ : Model).ready = true) ∧
      update ⟨"x".toList, true, ⟨3, 4, 5, "x".toList⟩⟩ (.key "c".toList) =
        ⟨[], true, ⟨3, 4, 5, []⟩⟩ :=
  ⟨rfl, c10_clear_frame _ rfl⟩

/-! ### Claim C6: lines of the formatted block never exceed the width -/

theorem splitNl_cons_nl (cs : Str) : splitNl ('\n' :: cs) = [] :: splitNl cs := by
  simp [splitNl]

theorem splitNl_ne_nil (s : Str) : splitNl s ≠ [] := by
  cases s with
  | nil => simp [splitNl]
  | cons c cs =>
    by_cases hc : c = '\n'
    · simp [splitNl, hc]
    · simp only [splitNl, if_neg hc]
      cases h : splitNl cs <;> simp

theorem splitNl_cons_other (c : Char) (cs : Str) (hc : c ≠ '\n') (l : Str)
    (ls : List Str) (h : splitNl cs = l :: ls) :
    splitNl (c :: cs) = (c :: l) :: ls := by
  simp only [splitNl, if_neg hc, h]

theorem getLastD_concat {α : Type} (l : List α) (a d : α) :
    ((l ++ [a]).getLast?).getD d = a := by
  rw [List.getLast?_concat]
  rfl

theorem splitNl_append_nl (s : Str) : splitNl (s ++ ['\n']) = splitNl s ++ [[]] := by
  induction s with
  | nil => rfl
  | cons c cs ih =>
    by_cases hc : c = '\n'
    · subst hc
      rw [List.cons_append, splitNl_cons_nl, splitNl_cons_nl, ih, List.cons_append]
    · obtain ⟨l, ls, h⟩ := List.exists_cons_of_ne_nil (splitNl_ne_nil cs)
      have h2 : splitNl (cs ++ ['\n']) = l :: (ls ++ [[]]) := by
        rw [ih, h, List.cons_append]
      rw [List.cons_append, splitNl_cons_other c _ hc _ _ h2,
        splitNl_cons_other c _ hc _ _ h, List.cons_append]

theorem splitNl_append_char (s : Str) (c : Char) (hc : c ≠ '\n') :
    splitNl (s ++ [c]) =
      (splitNl s).dropLast ++ [((splitNl s).getLast?).getD [] ++ [c]] := by
  induction s with
  | nil =>
    rw [List.nil_append, splitNl_cons_other c [] hc [] [] rfl]
    rfl
  | cons a as ih =>
    by_cases ha : a = '\n'
    · subst ha
      rw [List.cons_append, splitNl_cons_nl, ih, splitNl_cons_nl]
      obtain ⟨l, ls, h⟩ := List.exists_cons_of_ne_nil (splitNl_ne_nil as)
      rw [h, List.getLast?_cons_cons]
      rfl
    · obtain ⟨l, ls, h⟩ := List.exists_cons_of_ne_nil (splitNl_ne_nil as)
      cases ls with
      | nil =>
        have hac : splitNl (as ++ [c]) = [l ++ [c]] := by
          rw [ih, h]
          rfl
        rw [List.cons_append, splitNl_cons_other a _ ha _ _ hac,
          splitNl_cons_other a _ ha _ _ h]
        simp
      | cons l2 ls2 =>
        have hac : splitNl (as ++ [c]) =
            l :: ((l2 :: ls2).dropLast ++ [(((l2 :: ls2).getLast?).getD []) ++ [c]]) := by
          rw [ih, h, List.getLast?_cons_cons]
          rfl
        rw [List.cons_append, splitNl_cons_other a _ ha _ _ hac,
          splitNl_cons_other a _ ha _ _ h, List.getLast?_cons_cons]
        rfl

theorem printWidth_cons (c : Char) (cs : Str) :
    printWidth (c :: cs) = (if c = '\n' then 0 else 1) + printWidth cs := by
  by_cases hc : c = '\n'
  · simp [printWidth, List.filter_cons, hc]
  · simp only [printWidth, List.filter_cons, hc, decide_not, if_neg hc]
    simp [hc]
    omega

theorem splitNl_length_le (s : Str) : ∀ l ∈ splitNl s, l.length ≤ printWidth s := by
  induction s with
  | nil =>
    intro l hl
    simp only [splitNl, List.mem_singleton] at hl
    subst hl
    exact Nat.zero_le _
  | cons c cs ih =>
    intro l hl
    rw [printWidth_cons]
    by_cases hc : c = '\n'
    · subst hc
      rw [splitNl_cons_nl, List.mem_cons] at hl
      cases hl with
      | inl h =>
        subst h
        exact Nat.zero_le _
      | inr h =>
        have := ih l h
        simp only [if_pos rfl]
        omega
    · obtain ⟨hd, tl, h⟩ := List.exists_cons_of_ne_nil (splitNl_ne_nil cs)
      rw [splitNl_cons_other c _ hc _ _ h, List.mem_cons] at hl
      rw [if_neg hc]
      cases hl with
      | inl hh =>
        subst hh
        have hm : hd ∈ splitNl cs := by
          rw [h]
          exact List.mem_cons_self _ _
        have := ih hd hm
        simp only [List.length_cons]
        omega
      | inr hh =>
        have hm : l ∈ splitNl cs := by
          rw [h]
          exact List.mem_cons_of_mem _ hh
        have := ih l hm
        omega

theorem inv_append_nl (limit : Int) (hl0 : 0 ≤ limit) (buf : Str)
    (h1 : ∀ l ∈ splitNl buf, (l.length : Int) ≤ limit) :
    (∀ l ∈ splitNl (buf ++ ['\n']), (l.length : Int) ≤ limit) ∧
      ((((splitNl (buf ++ ['\n'])).getLast?).getD []).length : Int) = 0 := by
  rw [splitNl_append_nl]
  refine ⟨?_, ?_⟩
  · intro l hl
    rw [List.mem_append] at hl
    cases hl with
    | inl h => exact h1 l h
    | inr h =>
      rw [List.mem_singleton] at h
      subst h
      simpa using hl0
  · rw [getLastD_concat]
    rfl

theorem inv_append_char (limit : Int) (buf : Str) (lineLen : Int) (c : Char)
    (hc : c ≠ '\n')
    (h1 : ∀ l ∈ splitNl buf, (l.length : Int) ≤ limit)
    (h2 : ((((splitNl buf).getLast?).getD []).length : Int) = lineLen)
    (hfit : lineLen + 1 ≤ limit) :
    (∀ l ∈ splitNl (buf ++ [c]), (l.length : Int) ≤ limit) ∧
      ((((splitNl (buf ++ [c])).getLast?).getD []).length : Int) = lineLen + 1 := by
  rw [splitNl_append_char _ _ hc]
  refine ⟨?_, ?_⟩
  · intro l hl
    rw [List.mem_append] at hl
    cases hl with
    | inl h => exact h1 l (List.dropLast_subset _ h)
    | inr h =>
      rw [List.mem_singleton] at h
      subst h
      rw [List.length_append, List.length_singleton]
      push_cast
      omega
  · rw [getLastD_concat, List.length_append, List.length_singleton]
    push_cast
    omega

theorem wrStep_inv (limit : Int) (hl : 1 ≤ limit) (c : Char) (st : WrState)
    (h1 : ∀ l ∈ splitNl st.buf, (l.length : Int) ≤ limit)
    (h2 : ((((splitNl st.buf).getLast?).getD []).length : Int) = st.lineLen) :
    (∀ l ∈ splitNl (wrStep limit st c).buf, (l.length : Int) ≤ limit) ∧
      ((((splitNl (wrStep limit st c).buf).getLast?).getD []).length : Int) =
        (wrStep limit st c).lineLen := by
  unfold wrStep
  by_cases hc : c = '\n'
  · rw [if_pos hc]
    exact inv_append_nl limit (by omega) st.buf h1
  · rw [if_neg hc]
    by_cases hover : st.lineLen + 1 > limit
    · rw [if_pos hover]
      obtain ⟨k1, k2⟩ := inv_append_nl limit (by omega) st.buf h1
      unfold wrPut
      by_cases hskip :
          ({ wrAddNewline st with forceful := true } : WrState).lineLen = 0 ∧
            ({ wrAddNewline st with forceful := true } : WrState).forceful = true ∧
            isSpaceChar c = true
      · rw [if_pos hskip]
        exact ⟨k1, k2⟩
      · rw [if_neg hskip]
        exact inv_append_char limit _ 0 c hc k1 k2 (by omega)
    · rw [if_neg hover]
      unfold wrPut
      by_cases hskip : st.lineLen = 0 ∧ st.forceful = true ∧ isSpaceChar c = true
      · rw [if_pos hskip]
        exact ⟨h1, h2⟩
      · rw [if_neg hskip]
        exact inv_append_char limit _ _ c hc h1 h2 (by omega)

theorem wrFold_inv (limit : Int) (hl : 1 ≤ limit) (s : Str) : ∀ st : WrState,
    (∀ l ∈ splitNl st.buf, (l.length : Int) ≤ limit) →
    ((((splitNl st.buf).getLast?).getD []).length : Int) = st.lineLen →
    ∀ l ∈ splitNl (s.foldl (wrStep limit) st).buf, (l.length : Int) ≤ limit := by
  induction s with
  | nil =>
    intro st h1 _
    simpa using h1
  | cons c cs ih =>
    intro st h1 h2
    rw [List.foldl_cons]
    obtain ⟨k1, k2⟩ := wrStep_inv limit hl c st h1 h2
    exact ih _ k1 k2

theorem wrapString_lines (s : Str) (limit : Int) (hl : 1 ≤ limit) :
    ∀ l ∈ splitNl (wrapString s limit), (l.length : Int) ≤ limit := by
  unfold wrapString
  by_cases hfast : limit ≤ 0 ∨ ((printWidth (tabExpand s)) : Int) ≤ limit
  · rw [if_pos hfast]
    intro l hml
    have hle := splitNl_length_le (tabExpand s) l hml
    have hw : ((printWidth (tabExpand s)) : Int) ≤ limit := by
      cases hfast with
      | inl h => omega
      | inr h => exact h
    omega
  · rw [if_neg hfast]
    refine wrFold_inv limit hl (tabExpand s) ⟨[], 0, false⟩ ?_ ?_
    · intro l hml
      simp only [splitNl, List.mem_singleton] at hml
      subst hml
      simpa using (by omega : (0 : Int) ≤ limit)
    · rfl

/-- C6: with a positive width, every line of the formatted block is at
most `width` characters long — the final hard-wrap pass (`wrap.String`,
`main.go` line 181) enforces the bound for every line, so even the
single-long-word exception the claim allows never occurs. -/
theorem c6_line_width_bound (name text : Str) (width : Int) (hw : 1 ≤ width) :
    ∀ l ∈ splitNl (formatBlock name text width), (l.length : Int) ≤ width := by
  unfold formatBlock
  exact wrapString_lines _ _ hw

theorem c6_witness :
    (1 : Int) ≤ 5 ∧
      ∀ l ∈ splitNl (formatBlock "ab".toList "hello world".toList 5),
        (l.length : Int) ≤ 5 :=
  ⟨by decide, c6_line_width_bound _ _ _ (by decide)⟩

/-! ### Claim C9: non-positive widths disable wrapping -/

theorem nlCount_nil : nlCount [] = 0 := rfl

theorem nlCount_cons (c : Char) (s : Str) :
    nlCount (c :: s) = (if c = '\n' then 1 else 0) + nlCount s := by
  by_cases hc : c = '\n'
  · simp [nlCount, List.filter_cons, hc]
    omega
  · simp [nlCount, List.filter_cons, hc]

theorem nlCount_append (a b : Str) : nlCount (a ++ b) = nlCount a + nlCount b := by
  simp [nlCount, List.filter_append]

theorem nlCount_replicate_space (n : Nat) : nlCount (List.replicate n ' ') = 0 := by
  induction n with
  | zero => rfl
  | succ k ih =>
    rw [List.replicate_succ, nlCount_cons, if_neg (by decide), ih]

theorem nlCount_tabExpand (s : Str) : nlCount (tabExpand s) = nlCount s := by
  induction s with
  | nil => rfl
  | cons c cs ih =>
    have hstep : tabExpand (c :: cs) =
        (if c = '\t' then List.replicate 4 ' ' else [c]) ++ tabExpand cs := by
      simp [tabExpand]
    rw [hstep, nlCount_append, ih, nlCount_cons]
    by_cases hc : c = '\t'
    · rw [if_pos hc, nlCount_replicate_space, if_neg (by rw [hc]; decide)]
    · rw [if_neg hc, nlCount_cons]
      rfl

theorem nlCount_indentGo (n : Nat) (s : Str) : ∀ b : Bool,
    nlCount (indentGo n b s) = nlCount s := by
  induction s with
  | nil =>
    intro b
    rfl
  | cons c cs ih =>
    intro b
    by_cases hc : c = '\n'
    · subst hc
      have hstep : indentGo n b ('\n' :: cs) = '\n' :: indentGo n false cs := by
        simp [indentGo]
      rw [hstep, nlCount_cons, nlCount_cons, ih false]
    · cases b with
      | true =>
        have hstep : indentGo n true (c :: cs) = c :: indentGo n true cs := by
          simp [indentGo, hc]
        rw [hstep, nlCount_cons, nlCount_cons, ih true]
      | false =>
        have hstep : indentGo n false (c :: cs) =
            List.replicate n ' ' ++ c :: indentGo n true cs := by
          simp [indentGo, hc]
        rw [hstep, nlCount_append, nlCount_replicate_space, nlCount_cons,
          nlCount_cons, ih true]
        omega

theorem nlCount_trimLeft (s : Str) : nlCount (trimLeftSpaces s) = nlCount s := by
  induction s with
  | nil => rfl
  | cons c cs ih =>
    by_cases hc : c = ' '
    · subst hc
      rw [show trimLeftSpaces (' ' :: cs) = trimLeftSpaces cs from by
        simp [trimLeftSpaces, List.dropWhile_cons]]
      rw [ih, nlCount_cons, if_neg (by decide)]
      omega
    · rw [show trimLeftSpaces (c :: cs) = c :: cs from by
        simp [trimLeftSpaces, List.dropWhile_cons, hc]]

theorem wrapString_nonpos (s : Str) (limit : Int) (h : limit ≤ 0) :
    wrapString s limit = tabExpand s := by
  unfold wrapString
  rw [if_pos (Or.inl h)]

theorem wwStep_nl (limit : Int) (hneg : limit < 0) (st : WWState) (c : Char)
    (hs : nlCount st.space = 0) (hw : nlCount st.word = 0) :
    nlCount (wwStep limit st c).buf = nlCount st.buf + (if c = '\n' then 1 else 0) ∧
      nlCount (wwStep limit st c).space = 0 ∧
      nlCount (wwStep limit st c).word = 0 := by
  unfold wwStep
  by_cases hc : c = '\n'
  · rw [if_pos hc, if_pos hc]
    by_cases he : st.word.isEmpty
    · rw [if_pos he]
      by_cases hov : st.lineLen + (st.space.length : Int) > limit
      · rw [if_pos hov]
        simp [wwAddNewline, wwAddWord, wwAddSpace, he, nlCount_append, hs, hw,
          nlCount_cons, nlCount_nil]
      · rw [if_neg hov]
        simp [wwAddNewline, wwAddWord, wwAddSpace, he, nlCount_append, hs, hw,
          nlCount_cons, nlCount_nil]
    · rw [if_neg he]
      simp [wwAddNewline, wwAddWord, wwAddSpace, he, nlCount_append, hs, hw,
        nlCount_cons, nlCount_nil]
  · rw [if_neg hc, if_neg hc]
    by_cases hsp : isSpaceChar c = true
    · rw [if_pos hsp]
      by_cases he : st.word.isEmpty
      · simp [wwAddWord, wwAddSpace, he, nlCount_append, hs, hw, nlCount_cons, nlCount_nil, hc]
      · simp [wwAddWord, wwAddSpace, he, nlCount_append, hs, hw, nlCount_cons, nlCount_nil, hc]
    · rw [if_neg hsp]
      by_cases hbr : c = '-'
      · rw [if_pos hbr]
        by_cases he : st.word.isEmpty
        · simp [wwAddWord, wwAddSpace, he, nlCount_append, hs, hw, nlCount_cons, nlCount_nil, hc]
        · simp [wwAddWord, wwAddSpace, he, nlCount_append, hs, hw, nlCount_cons, nlCount_nil, hc]
      · rw [if_neg hbr]
        rw [if_neg (by
          rintro ⟨-, hlt⟩
          have : (0 : Int) ≤ ((st.word ++ [c]).length : Int) := by positivity
          omega)]
        simp [nlCount_append, hs, hw, nlCount_cons, nlCount_nil, hc]

theorem wordwrapString_nl (s : Str) (limit : Int) (hneg : limit < 0) :
    nlCount (wordwrapString s limit) = nlCount s := by
  unfold wordwrapString
  rw [if_neg (by omega)]
  suffices h : ∀ st : WWState, nlCount st.space = 0 → nlCount st.word = 0 →
      nlCount (wwAddWord (s.foldl (wwStep limit) st)).buf = nlCount st.buf + nlCount s by
    simpa [nlCount_nil] using h ⟨[], [], [], 0⟩ rfl rfl
  induction s with
  | nil =>
    intro st hs hw
    by_cases he : st.word.isEmpty
    · simp [wwAddWord, wwAddSpace, he, nlCount_append, hs, hw, nlCount_nil]
    · simp [wwAddWord, wwAddSpace, he, nlCount_append, hs, hw, nlCount_nil]
  | cons c cs ih =>
    intro st hs hw
    rw [List.foldl_cons]
    obtain ⟨k1, k2, k3⟩ := wwStep_nl limit hneg st c hs hw
    rw [ih _ k2 k3, k1, nlCount_cons]
    omega

/-- C9 (amended): a width less than or equal to zero disables wrapping
rather than acting as width 1: the word-wrap limit `width - (4 +
len(name))` is negative and inserts no line break, and the final hard
wrap passes text through untouched, so the block contains exactly the
newlines of the message text plus the single appended terminator; no
division by zero and no failure occurs (the functions are total). -/
theorem c9_amended (name text : Str) (width : Int) (hw : width ≤ 0)
    (hn : nlCount name = 0) :
    nlCount (formatBlock name text width) = nlCount text + 1 := by
  simp only [formatBlock]
  rw [wrapString_nonpos _ _ hw, nlCount_tabExpand, nlCount_append, nlCount_trimLeft]
  rw [show indentString = fun s n => indentGo n false s from rfl]
  rw [nlCount_indentGo, nlCount_cons, if_neg (by decide)]
  rw [wordwrapString_nl _ _ (by
    have : (0 : Int) ≤ (name.length : Int) := by positivity
    omega)]
  by_cases hl : name.length > 0
  · rw [if_pos hl]
    rw [show boldRender name = name from rfl, nlCount_append, hn]
    rw [show nlCount ['\n'] = 1 from rfl]
    omega
  · rw [if_neg hl]
    rw [show nlCount ['\n'] = 1 from rfl]
    omega

theorem c9_witness :
    ((0 : Int) ≤ 0 ∧ nlCount "a: ".toList = 0) ∧
      nlCount (formatBlock "a: ".toList "hi".toList 0) = nlCount "hi".toList + 1 :=
  ⟨⟨le_refl 0, by decide⟩, c9_amended _ _ _ (le_refl 0) (by decide)⟩

example : stepLine [] "::name::Alice".toList = ("Alice: ".toList, none) := by decide
example : stepLine [] "::name:: ".toList = (": ".toList, none) := by decide
example :
    processLines [] ["::name::Alice".toList, "hi".toList] =
      [⟨"Alice: ".toList, "hi".toList⟩] := by decide
example : completeLines "ab\ncd".toList = ["ab".toList] := by decide
example : connEvents "hi\npart".toList = [⟨[], "hi".toList⟩] := by decide

end DebugListener
